import Mathlib

/-! Epoch process and epoch watcher of the darknode (`darknode/epoch.go`).

A shallow embedding of `RunEpochProcess` and `RunEpochWatcher`.

Goroutines talk to the rest of the system only through channels and calls to
external collaborators.  Every such interaction is answered by the environment;
the embedding takes the answers as an explicit script and returns the sequence
of channel operations and calls the code performs, in program order.  A script
that runs out while the code is waiting for an answer leaves the goroutine
blocked: the returned sequence is then the prefix performed so far.
-/

namespace Darknode

/-! ## Machine integers -/

/-- Go `int` on a 64-bit platform: two's complement wrap-around. -/
def wrapInt64 (x : Int) : Int := (x + 2 ^ 63) % 2 ^ 64 - 2 ^ 63

/-- The value of `time.Minute`, in nanoseconds. -/
def Minute : Nat := 60 * 1000000000

/-! ## Data model -/

/-- An `identity.Address`. -/
abbrev Address := String

/-- An `identity.ID`. -/
abbrev ID := String

/-- What `RunEpochProcess` uses of the pool returned by `darkOcean.Pool`:
`pool.Addresses()` and `pool.Size()`. -/
structure Pool where
  Addresses : List Address
  Size : Int
deriving DecidableEq, Repr

/-- An `rpc.Computation`: one optional field carrying a delta fragment. -/
structure Computation (P : Type) where
  DeltaFragment : Option P
deriving DecidableEq, Repr

/-- The channels in scope of `RunEpochProcess`.  `sender i` is the channel made
by the `i`-th iteration of the connection loop. -/
inductive Chan
  | deltas
  | errs
  | epochRoutes
  | deltaFragments
  | sender (i : Nat)
deriving DecidableEq, Repr

/-- Values that travel over the channels of `RunEpochProcess`. -/
inductive Value (F P D : Type)
  | err (e : String)
  | computation (c : Computation P)
  | fragment (f : F)
  | delta (d : D)
  | route (id : ID)
deriving DecidableEq, Repr

/-- Calls to external collaborators made by `RunEpochProcess`. -/
inductive Call
  | routerCompute (a : Address) (sender : Nat)
  | newComputer (id : ID) (n k : Int)
  | openOrders
  | computeOrderMatches
deriving DecidableEq, Repr

/-- One observable step of `RunEpochProcess`. -/
inductive Event (F P D : Type)
  | make (ch : Chan)
  | send (ch : Chan) (v : Value F P D)
  | close (ch : Chan)
  | timeout (ch : Chan)
  | call (c : Call)
  | panic (msg : String)
deriving DecidableEq, Repr

/-- Outcome of the `select` of line 80: `done` fired, the engine closed its
computed-fragment output, or a computed fragment arrived. -/
inductive OuterSel (F : Type)
  | done
  | closed
  | fragment (f : F)
deriving DecidableEq, Repr

/-- Outcome of the per-peer `select` of line 91: `done` fired, the one-minute
context expired, or the peer's sender accepted the computation. -/
inductive InnerSel
  | done
  | timeout
  | accepted
deriving DecidableEq, Repr

/-- Outcome of one step of the relay: `done` fired, the engine closed its delta
output, or a delta arrived and was forwarded. -/
inductive PipeSel (D : Type)
  | done
  | closed
  | value (d : D)
deriving DecidableEq, Repr

/-- What one inbound goroutine can observe on its receiver: whether `done` fires
first, and the messages the peer delivers before the receiver closes. -/
structure Inbox (P : Type) where
  doneFirst : Bool
  messages : List (Computation P)

/-- The environment of one run of `RunEpochProcess`. -/
structure ProcessEnv (F P D : Type) where
  /-- result of `darkOcean.Pool(id)` -/
  pool : Except String Pool
  /-- whether somebody receives from the unbuffered `errs` channel -/
  errsReceived : Bool
  /-- `rpc.MarshalDeltaFragment` -/
  marshal : F → P
  /-- `rpc.UnmarshalDeltaFragment`: the fragment and the error it returns -/
  unmarshal : P → F × Option String
  /-- order in which the `r`-th broadcast ranges over the `senders` map -/
  rangeOrder : Nat → List (Address × Nat) → List (Address × Nat)
  /-- successive outcomes of the `select` of line 80 -/
  computed : List (OuterSel F)
  /-- outcome of the `select` of line 91 in broadcast `r` for each peer -/
  peer : Nat → Address → InnerSel
  /-- successive outcomes seen by the relay -/
  pipe : List (PipeSel D)
  /-- what the inbound goroutine of each peer observes -/
  inbox : Address → Inbox P

/-! ## `RunEpochProcess` -/

/-- Assignment `m[a] = c` on a Go map kept as an association list. -/
def mapSet (m : List (Address × Nat)) (a : Address) (c : Nat) : List (Address × Nat) :=
  (a, c) :: m.filter (fun e => e.1 ≠ a)

/-- The connection loop of lines 37-43, started at channel index `i` with the
map `senders`: for each address a sender is made, stored under the address and
given to `router.Compute`.  Returns the events and the final map. -/
def connect {F P D : Type} :
    List Address → Nat → List (Address × Nat) → List (Event F P D) × List (Address × Nat)
  | [], _, senders => ([], senders)
  | a :: rest, i, senders =>
    let r := connect rest (i + 1) (mapSet senders a i)
    (Event.make (Chan.sender i) :: Event.call (Call.routerCompute a i) :: r.1, r.2)

/-- The deferred `close(sender)` calls of line 39 for `m` senders, in the order
in which they run when the worker returns (last deferred first). -/
def deferredCloses {F P D : Type} (m : Nat) : List (Event F P D) :=
  (List.range m).reverse.map (fun i => Event.close (Chan.sender i))

/-- The threshold of line 46: `(pool.Size() + 1) * 2 / 3` on Go `int`. -/
def threshold (size : Int) : Int :=
  Int.tdiv (wrapInt64 (wrapInt64 (size + 1) * 2)) 3

/-- A send on a channel: a panic when the channel is closed. -/
def chanSend {F P D : Type} (closed : Bool) (ch : Chan) (v : Value F P D) : List (Event F P D) :=
  if closed then [Event.panic "send on closed channel"] else [Event.send ch v]

/-- The goroutine of lines 57-74, for one receiver.  `fragmentsClosed` is the
state of the `deltaFragments` channel.  A single `select`: either `done` fires,
or one message is taken from the receiver (an empty inbox is a closed
receiver); a message with a fragment is unmarshalled, the error is ignored and
the fragment is sent on `deltaFragments`.  Returns the events and the messages
left unread on the receiver. -/
def inboundGoroutine {F P D : Type} (unmarshal : P → F × Option String)
    (fragmentsClosed : Bool) (inbox : Inbox P) : List (Event F P D) × List (Computation P) :=
  if inbox.doneFirst then ([], inbox.messages)
  else
    match inbox.messages with
    | [] => ([], [])
    | computation :: unread =>
      match computation.DeltaFragment with
      | none => ([], unread)
      | some payload =>
        (chanSend fragmentsClosed Chan.deltaFragments (Value.fragment (unmarshal payload).1), unread)

/-- The loop of lines 89-101 over the senders in the order given: one `select`
per sender.  Returns the events and whether `done` fired (the duty returns). -/
def broadcast {F P D : Type} (computation : Computation P) (peer : Address → InnerSel) :
    List (Address × Nat) → List (Event F P D) × Bool
  | [] => ([], false)
  | (a, i) :: rest =>
    match peer a with
    | InnerSel.done => ([], true)
    | InnerSel.timeout =>
      let r := broadcast computation peer rest
      (Event.timeout (Chan.sender i) :: r.1, r.2)
    | InnerSel.accepted =>
      let r := broadcast computation peer rest
      (Event.send (Chan.sender i) (Value.computation computation) :: r.1, r.2)

/-- The outbound duty of lines 79-103, at broadcast number `r`.  Returns the
events and whether the duty has returned. -/
def outboundDuty {F P D : Type} (marshal : F → P)
    (rangeOrder : Nat → List (Address × Nat) → List (Address × Nat))
    (peer : Nat → Address → InnerSel) (senders : List (Address × Nat)) :
    Nat → List (OuterSel F) → List (Event F P D) × Bool
  | _, [] => ([], false)
  | _, OuterSel.done :: _ => ([], true)
  | _, OuterSel.closed :: _ => ([], true)
  | r, OuterSel.fragment f :: rest =>
    let b := broadcast (Computation.mk (some (marshal f))) (peer r) (rangeOrder r senders)
    if b.2 then (b.1, true)
    else
      let o := outboundDuty marshal rangeOrder peer senders (r + 1) rest
      (b.1 ++ o.1, o.2)

/-- Modelled from the spec: `dispatch.Pipe(done, deltasComputed, deltas)` is not
among the sources.  The relay duty forwards every delta of the engine's output
to `deltas`, in arrival order, until cancellation or until the engine's output
closes.  Returns the events and whether the relay has returned. -/
def Pipe {F P D : Type} : List (PipeSel D) → List (Event F P D) × Bool
  | [] => ([], false)
  | PipeSel.done :: _ => ([], true)
  | PipeSel.closed :: _ => ([], true)
  | PipeSel.value d :: rest =>
    let r := Pipe rest
    (Event.send Chan.deltas (Value.delta d) :: r.1, r.2)

/-- Modelled from the spec: `dispatch.Dispatch(f, g, h)` is not among the
sources.  It runs the duties concurrently and the channel it returns is closed
once all of them have returned; the first duty only starts the inbound
goroutines and returns at once. -/
def Dispatch (outboundReturned relayReturned : Bool) : Bool :=
  outboundReturned && relayReturned

/-- One run of `RunEpochProcess`, by goroutine.  The goroutines run
concurrently, so only the order within each field is program order; a `panic`
event ends the whole process, the other fields then hold what their goroutines
would have done had they got that far. -/
structure ProcessRun (F P D : Type) where
  /-- the worker, from its start to the `Dispatch` of line 54 -/
  setup : List (Event F P D)
  /-- the inbound goroutines, one per receiver -/
  inbound : List (Address × List (Event F P D) × List (Computation P))
  /-- the outbound duty -/
  outbound : List (Event F P D)
  /-- the relay duty -/
  relay : List (Event F P D)
  /-- the deferred calls, run when the worker returns -/
  deferred : List (Event F P D)
  /-- whether the worker has returned -/
  exited : Bool

/-- The worker goroutine of `RunEpochProcess` (lines 24-108). -/
def RunEpochProcess {F P D : Type} (id : ID) (env : ProcessEnv F P D) : ProcessRun F P D :=
  match env.pool with
  | Except.error err =>
    if env.errsReceived then
      { setup := [Event.send Chan.errs (Value.err err)], inbound := [], outbound := [],
        relay := [], deferred := [Event.close Chan.deltas], exited := true }
    else
      { setup := [], inbound := [], outbound := [], relay := [], deferred := [],
        exited := false }
  | Except.ok pool =>
    let conn := connect (F := F) (P := P) (D := D) pool.Addresses 0 []
    let senders := conn.2
    let n := pool.Size
    let k := threshold pool.Size
    let setup := conn.1 ++
      [Event.call (Call.newComputer id n k), Event.make Chan.deltaFragments,
       Event.close Chan.deltaFragments, Event.call Call.openOrders,
       Event.call Call.computeOrderMatches]
    let inbound := senders.map (fun e => (e.1, inboundGoroutine env.unmarshal true (env.inbox e.1)))
    let out := outboundDuty env.marshal env.rangeOrder env.peer senders 0 env.computed
    let rel := Pipe (F := F) (P := P) env.pipe
    let exited := Dispatch out.2 rel.2
    { setup := setup, inbound := inbound, outbound := out.1, relay := rel.1,
      deferred := if exited then deferredCloses pool.Addresses.length ++ [Event.close Chan.deltas]
                  else [],
      exited := exited }

/-- The operations of the worker and of the outbound duty in the order in which
they happen: the senders are made during setup, used by the outbound duty, and
the deferred calls run after `Dispatch` has returned. -/
def ProcessRun.senderTrace {F P D : Type} (run : ProcessRun F P D) : List (Event F P D) :=
  run.setup ++ run.outbound ++ run.deferred

/-- All events of a run. -/
def ProcessRun.events {F P D : Type} (run : ProcessRun F P D) : List (Event F P D) :=
  run.setup ++ (run.inbound.map (fun g => g.2.1)).flatten ++ run.outbound ++ run.relay ++ run.deferred

/-- The value an event sends on channel `ch`, if it is such a send. -/
def Event.sentOn {F P D : Type} (ch : Chan) : Event F P D → Option (Value F P D)
  | Event.send c v => if c = ch then some v else none
  | _ => none

/-- Whether the event closes channel `ch`. -/
def Event.closesChan {F P D : Type} (ch : Chan) : Event F P D → Bool
  | Event.close c => decide (c = ch)
  | _ => false

/-- Whether the event is a context expiry while offering on channel `ch`. -/
def Event.expiredOn {F P D : Type} (ch : Chan) : Event F P D → Bool
  | Event.timeout c => decide (c = ch)
  | _ => false

/-- Whether the event is a context expiry. -/
def Event.expired {F P D : Type} : Event F P D → Bool
  | Event.timeout _ => true
  | _ => false

/-- The values sent on channel `ch`, in order. -/
def deliveries {F P D : Type} (ch : Chan) (evs : List (Event F P D)) : List (Value F P D) :=
  evs.filterMap (Event.sentOn ch)

/-- The number of context expiries while offering on channel `ch`. -/
def expiries {F P D : Type} (ch : Chan) (evs : List (Event F P D)) : Nat :=
  evs.countP (Event.expiredOn ch)

/-- The time spent waiting for contexts that expired, in nanoseconds: each
expired context had the full `time.Minute`. -/
def waited {F P D : Type} (evs : List (Event F P D)) : Nat :=
  Minute * evs.countP Event.expired

/-- The number of times channel `ch` is closed. -/
def closes {F P D : Type} (ch : Chan) (evs : List (Event F P D)) : Nat :=
  evs.countP (Event.closesChan ch)

/-! ## `RunEpochWatcher` -/

/-- What `RunEpochWatcher` uses of a `contracts.Epoch`: the block hash (a byte
array) and the timestamp. -/
structure Epoch where
  Blockhash : List (Fin 256)
  Timestamp : Nat
deriving DecidableEq, Repr

/-- Result of a registry call. -/
inductive Answer (α : Type)
  | ok (v : α)
  | failed (err : String)
deriving DecidableEq, Repr

/-- One observable step of `RunEpochWatcher`.  A `currentEpoch` read records
whether it is the read of line 164 (`polling`) or the one of line 130; a `sleep`
records the deadline and whether `done` is closed when the sleep returns. -/
inductive WatchEvent
  | minimumEpochInterval (r : Answer Nat)
  | currentEpoch (polling : Bool) (r : Answer Epoch)
  | emit (e : Epoch)
  | error (msg : String)
  | sleep (deadline : Nat) (cancelled : Bool)
  | closeErrs
  | closeChanges
deriving DecidableEq, Repr

/-- The environment of one run of `RunEpochWatcher`. -/
structure WatcherEnv where
  /-- result of `darknodeRegistry.MinimumEpochInterval()` -/
  minimumEpochInterval : Answer Nat
  /-- successive results of `darknodeRegistry.CurrentEpoch()`, each with whether
  `done` is closed when the call returns -/
  currentEpoch : List (Answer Epoch × Bool)
  /-- `Timestamp.Add(&minimumEpochInterval).ToUint()` for a timestamp and an
  interval -/
  toUnix : Nat → Nat → Answer Nat
  /-- whether the `select` of line 138 of outer iteration `j` takes the send
  (otherwise `done` fired) -/
  accepted : Nat → Bool
  /-- whether `done` is closed when the sleep of outer iteration `j` returns -/
  cancelledInSleep : Nat → Bool

/-- The deferred calls of lines 121-122, in the order in which they run. -/
def watcherDeferred : List WatchEvent :=
  [WatchEvent.closeErrs, WatchEvent.closeChanges]

/-- Lines 137-152 of outer iteration `j`: the `select` that emits `cur`, the
computation of the deadline and the sleep; `spin` is the spin-lock that follows,
given whether `done` is closed when the sleep returns. -/
def announce (env : WatcherEnv) (interval : Nat) (j : Nat) (cur : Epoch)
    (spin : Bool → List WatchEvent) : List WatchEvent :=
  if env.accepted j then
    WatchEvent.emit cur ::
      match env.toUnix cur.Timestamp interval with
      | Answer.failed err =>
        WatchEvent.error ("cannot convert epoch timestamp to unix timestamp: " ++ err)
          :: watcherDeferred
      | Answer.ok deadline =>
        WatchEvent.sleep deadline (env.cancelledInSleep j) :: spin (env.cancelledInSleep j)
  else watcherDeferred

/-- The spin-lock of lines 156-173 in outer iteration `j`, followed by the rest
of the outer loop.  `done` tells whether the done channel is closed at the
`select` of line 158. -/
def spinLock (env : WatcherEnv) (interval : Nat) :
    Epoch → Nat → Bool → List (Answer Epoch × Bool) → List WatchEvent
  | _, _, true, _ => watcherDeferred
  | _, _, false, [] => []
  | _, _, false, (Answer.failed err, _) :: _ =>
    WatchEvent.currentEpoch true (Answer.failed err)
      :: WatchEvent.error ("cannot get next epoch: " ++ err) :: watcherDeferred
  | cur, j, false, (Answer.ok next, done) :: rest =>
    WatchEvent.currentEpoch true (Answer.ok next) ::
      if cur.Blockhash ≠ next.Blockhash then
        announce env interval (j + 1) next (fun c => spinLock env interval next (j + 1) c rest)
      else spinLock env interval cur j done rest

/-- The goroutine of `RunEpochWatcher` (lines 120-175). -/
def RunEpochWatcher (env : WatcherEnv) : List WatchEvent :=
  match env.minimumEpochInterval with
  | Answer.failed err =>
    WatchEvent.minimumEpochInterval (Answer.failed err)
      :: WatchEvent.error ("cannot get minimum epoch interval: " ++ err) :: watcherDeferred
  | Answer.ok interval =>
    WatchEvent.minimumEpochInterval (Answer.ok interval) ::
      match env.currentEpoch with
      | [] => []
      | (Answer.failed err, _) :: _ =>
        WatchEvent.currentEpoch false (Answer.failed err)
          :: WatchEvent.error ("cannot get current epoch: " ++ err) :: watcherDeferred
      | (Answer.ok currentEpoch, _) :: rest =>
        WatchEvent.currentEpoch false (Answer.ok currentEpoch) ::
          announce env interval 0 currentEpoch
            (fun c => spinLock env interval currentEpoch 0 c rest)

/-- The epoch an event sends on `changes`, if it is such a send. -/
def WatchEvent.epoch : WatchEvent → Option Epoch
  | WatchEvent.emit e => some e
  | _ => none

/-- Whether the event places an error on `errs`. -/
def WatchEvent.placesError : WatchEvent → Bool
  | WatchEvent.error _ => true
  | _ => false

/-- The epochs sent on `changes`, in order. -/
def emitted (evs : List WatchEvent) : List Epoch :=
  evs.filterMap WatchEvent.epoch

/-- The number of errors placed on `errs`. -/
def errorsPlaced (evs : List WatchEvent) : Nat :=
  evs.countP WatchEvent.placesError

/-- Whether the event is a registry read that failed. -/
def WatchEvent.failedRead : WatchEvent → Bool
  | WatchEvent.minimumEpochInterval (Answer.failed _) => true
  | WatchEvent.currentEpoch _ (Answer.failed _) => true
  | _ => false

/-- Whether the event is one of the two reads made before the loop. -/
def WatchEvent.startup : WatchEvent → Bool
  | WatchEvent.minimumEpochInterval _ => true
  | WatchEvent.currentEpoch false _ => true
  | _ => false

/-- Whether the event is a registry read. -/
def WatchEvent.registryRead : WatchEvent → Bool
  | WatchEvent.minimumEpochInterval _ => true
  | WatchEvent.currentEpoch _ _ => true
  | _ => false

/-- The spec's words for the emissions that follow an emitted epoch: of the
later reads, exactly those whose block hash differs from the block hash of the
most recently emitted epoch, in read order. -/
def changesAfter (last : Epoch) : List Epoch → List Epoch
  | [] => []
  | e :: rest =>
    if e.Blockhash ≠ last.Blockhash then e :: changesAfter e rest else changesAfter last rest

/-- The environment `env` with a registry whose successive `CurrentEpoch` reads
succeed with `es`, `done` being open at each of them. -/
def WatcherEnv.reading (env : WatcherEnv) (es : List Epoch) : WatcherEnv :=
  { env with currentEpoch := es.map (fun e => (Answer.ok e, false)) }

/-- An environment in which the interval read succeeds, `done` is never closed,
every emitted epoch is received and every deadline converts. -/
def undisturbed (interval : Nat) : WatcherEnv :=
  { minimumEpochInterval := Answer.ok interval
    currentEpoch := []
    toUnix := fun t i => Answer.ok (t + i)
    accepted := fun _ => true
    cancelledInSleep := fun _ => false }

/-- Every `sleep` during which `done` was closed is followed by the deferred
closes and nothing else. -/
def StopsAfterCancelledSleep (t : List WatchEvent) : Prop :=
  ∀ pre deadline post, t = pre ++ WatchEvent.sleep deadline true :: post → post = watcherDeferred

/-- Every failed registry read is followed by one error and the deferred closes,
and by nothing else. -/
def FailsFatally (t : List WatchEvent) : Prop :=
  ∀ pre ev post, t = pre ++ ev :: post → ev.failedRead = true →
    ∃ msg, post = [WatchEvent.error msg, WatchEvent.closeErrs, WatchEvent.closeChanges]

/-! ## Sample environments -/

/-- Three peers `a`, `b`, `c` of which `b` never accepts a send: the engine
computes one fragment, then `done` fires; every range visits the map in its
stored order. -/
def threePeers : ProcessEnv Nat Nat Nat :=
  { pool := Except.ok (Pool.mk ["a", "b", "c"] 3)
    errsReceived := true
    marshal := fun f => f
    unmarshal := fun p => (p, none)
    rangeOrder := fun _ l => l
    computed := [OuterSel.fragment 7, OuterSel.done]
    peer := fun _ a => if a = "b" then InnerSel.timeout else InnerSel.accepted
    pipe := [PipeSel.done]
    inbox := fun _ => Inbox.mk false [] }

/-- One peer `a` that delivers two computations, each carrying a fragment,
before its receiver closes; `done` fires only after that. -/
def twoMessages : ProcessEnv Nat Nat Nat :=
  { pool := Except.ok (Pool.mk ["a"] 1)
    errsReceived := true
    marshal := fun f => f
    unmarshal := fun p => (p, none)
    rangeOrder := fun _ l => l
    computed := [OuterSel.done]
    peer := fun _ _ => InnerSel.accepted
    pipe := [PipeSel.done]
    inbox := fun _ => Inbox.mk false [Computation.mk (some 1), Computation.mk (some 2)] }

/-- One peer `a` that delivers one computation carrying a fragment. -/
def oneMessage : ProcessEnv Nat Nat Nat :=
  { pool := Except.ok (Pool.mk ["a"] 1)
    errsReceived := true
    marshal := fun f => f
    unmarshal := fun p => (p, none)
    rangeOrder := fun _ l => l
    computed := [OuterSel.done]
    peer := fun _ _ => InnerSel.accepted
    pipe := [PipeSel.done]
    inbox := fun _ => Inbox.mk false [Computation.mk (some 1)] }

/-- One peer `a`; `done` fires before the engine computes anything. -/
def cancelledAtOnce : ProcessEnv Nat Nat Nat :=
  { pool := Except.ok (Pool.mk ["a"] 1)
    errsReceived := true
    marshal := fun f => f
    unmarshal := fun p => (p, none)
    rangeOrder := fun _ l => l
    computed := [OuterSel.done]
    peer := fun _ _ => InnerSel.accepted
    pipe := [PipeSel.done]
    inbox := fun _ => Inbox.mk true [] }

/-- An epoch with block hash `[1]` observed at time 100. -/
def epochA : Epoch := Epoch.mk [1] 100

/-- The epoch of `epochA` read again with another timestamp. -/
def epochAgain : Epoch := Epoch.mk [1] 101

/-- An epoch with block hash `[2]` observed at time 200. -/
def epochB : Epoch := Epoch.mk [2] 200

/-- A registry whose second `CurrentEpoch` read fails, `done` staying open. -/
def failingRegistry : WatcherEnv :=
  { minimumEpochInterval := Answer.ok 10
    currentEpoch := [(Answer.ok epochA, false), (Answer.failed "unreachable", false),
      (Answer.ok epochB, false)]
    toUnix := fun t i => Answer.ok (t + i)
    accepted := fun _ => true
    cancelledInSleep := fun _ => false }

/-- A run in which `done` is closed during the first sleep. -/
def cancelledAsleep : WatcherEnv :=
  { minimumEpochInterval := Answer.ok 10
    currentEpoch := [(Answer.ok epochA, false), (Answer.ok epochB, false)]
    toUnix := fun t i => Answer.ok (t + i)
    accepted := fun _ => true
    cancelledInSleep := fun _ => true }

/-! ## The connection loop -/

theorem mem_connect_events {F P D : Type} (as : List Address) (i : Nat)
    (m : List (Address × Nat)) (e : Event F P D) (h : e ∈ (connect as i m).1) :
    (∃ k, i ≤ k ∧ k < i + as.length ∧ e = Event.make (Chan.sender k))
      ∨ (∃ a k, e = Event.call (Call.routerCompute a k)) := by
  induction as generalizing i m with
  | nil => simp [connect] at h
  | cons a rest ih =>
    simp only [connect, List.mem_cons] at h
    rcases h with h | h | h
    · exact Or.inl ⟨i, le_refl _, by simp, h⟩
    · exact Or.inr ⟨a, i, h⟩
    · rcases ih (i + 1) (mapSet m a i) h with ⟨k, h1, h2, h3⟩ | h'
      · exact Or.inl ⟨k, by omega, by simp only [List.length_cons]; omega, h3⟩
      · exact Or.inr h'

theorem make_mem_connect_events {F P D : Type} (as : List Address) (i : Nat)
    (m : List (Address × Nat)) (k : Nat) (h1 : i ≤ k) (h2 : k < i + as.length) :
    (Event.make (Chan.sender k) : Event F P D) ∈ (connect as i m).1 := by
  induction as generalizing i m with
  | nil => simp at h2; omega
  | cons a rest ih =>
    simp only [connect, List.mem_cons]
    by_cases hk : k = i
    · exact Or.inl (by rw [hk])
    · refine Or.inr (Or.inr (ih (i + 1) (mapSet m a i) (by omega) ?_))
      simp only [List.length_cons] at h2
      omega

theorem connect_no_newComputer {F P D : Type} (as : List Address) (i : Nat)
    (m : List (Address × Nat)) (id : ID) (n k : Int) :
    (Event.call (Call.newComputer id n k) : Event F P D) ∉ (connect as i m).1 := by
  intro h
  rcases mem_connect_events as i m _ h with ⟨_, _, _, h3⟩ | ⟨_, _, h3⟩
  · cases h3
  · cases h3

/-! ## Threshold -/

theorem wrapInt64_of_range (x : Int) (h1 : -(2 ^ 63) ≤ x) (h2 : x < 2 ^ 63) : wrapInt64 x = x := by
  unfold wrapInt64
  omega

theorem threshold_eq_ediv (n : Int) (h1 : 0 ≤ n) (h2 : (n + 1) * 2 < 2 ^ 63) :
    threshold n = (2 * (n + 1)) / 3 := by
  unfold threshold
  rw [wrapInt64_of_range (n + 1) (by omega) (by omega),
    wrapInt64_of_range ((n + 1) * 2) (by omega) (by omega),
    Int.tdiv_eq_ediv (by omega) (by omega)]
  congr 1
  omega

/-- C1: for a pool of size `n ≥ 1` with `(n+1)*2` not overflowing, the `k` that
`RunEpochProcess` passes to `smpc.NewComputer` is `threshold n`, which equals
`floor(2(n+1)/3)` and lies between `1` and `n`; sizes 1, 2, 3, 4, 7, 10, 100
give 1, 2, 2, 3, 5, 7, 67. -/
theorem threshold_floor_and_bounds {F P D : Type} (id : ID) (env : ProcessEnv F P D) (pool : Pool)
    (hpool : env.pool = Except.ok pool) (h1 : 1 ≤ pool.Size)
    (h2 : (pool.Size + 1) * 2 < 2 ^ 63) :
    Event.call (Call.newComputer id pool.Size (threshold pool.Size))
        ∈ (RunEpochProcess id env).setup
      ∧ (∀ n k, Event.call (Call.newComputer id n k) ∈ (RunEpochProcess id env).setup →
          n = pool.Size ∧ k = threshold pool.Size)
      ∧ threshold pool.Size = ⌊((2 * (pool.Size + 1) : Int) : ℚ) / 3⌋
      ∧ 1 ≤ threshold pool.Size ∧ threshold pool.Size ≤ pool.Size
      ∧ threshold 1 = 1 ∧ threshold 2 = 2 ∧ threshold 3 = 2 ∧ threshold 4 = 3
      ∧ threshold 7 = 5 ∧ threshold 10 = 7 ∧ threshold 100 = 67 := by
  have hk := threshold_eq_ediv pool.Size (by omega) h2
  refine ⟨?_, ?_, ?_, ?_, ?_, by decide, by decide, by decide, by decide, by decide, by decide,
    by decide⟩
  · simp [RunEpochProcess, hpool]
  · intro n k hmem
    simp only [RunEpochProcess, hpool, List.mem_append] at hmem
    rcases hmem with hmem | hmem
    · exact absurd hmem (connect_no_newComputer _ _ _ _ _ _)
    · simpa using hmem
  · rw [hk]
    have := Rat.floor_intCast_div_natCast (2 * (pool.Size + 1)) 3
    simpa using this.symm
  · rw [hk]; omega
  · rw [hk]; omega

/-! ## Counting channel operations -/

theorem closes_append {F P D : Type} (ch : Chan) (xs ys : List (Event F P D)) :
    closes ch (xs ++ ys) = closes ch xs + closes ch ys := by
  simp [closes]

theorem deliveries_append {F P D : Type} (ch : Chan) (xs ys : List (Event F P D)) :
    deliveries ch (xs ++ ys) = deliveries ch xs ++ deliveries ch ys := by
  simp [deliveries]

theorem expiries_append {F P D : Type} (ch : Chan) (xs ys : List (Event F P D)) :
    expiries ch (xs ++ ys) = expiries ch xs + expiries ch ys := by
  simp [expiries]

theorem waited_append {F P D : Type} (xs ys : List (Event F P D)) :
    waited (xs ++ ys) = waited xs + waited ys := by
  simp [waited, Nat.mul_add]

theorem closes_eq_zero {F P D : Type} (ch : Chan) (xs : List (Event F P D))
    (h : ∀ c, Event.close c ∉ xs) : closes ch xs = 0 := by
  rw [closes, List.countP_eq_zero]
  intro e he
  cases e <;> simp [Event.closesChan]
  case close c => exact absurd he (h c)

theorem mem_of_mem_deliveries {F P D : Type} (ch : Chan) (xs : List (Event F P D))
    (v : Value F P D) (h : v ∈ deliveries ch xs) : Event.send ch v ∈ xs := by
  simp only [deliveries, List.mem_filterMap] at h
  obtain ⟨e, he, hv⟩ := h
  cases e <;> simp [Event.sentOn] at hv
  case send c w =>
    obtain ⟨hc, hw⟩ := hv
    subst hc hw
    exact he

theorem deliveries_eq_nil {F P D : Type} (ch : Chan) (xs : List (Event F P D))
    (h : ∀ v, Event.send ch v ∉ xs) : deliveries ch xs = [] := by
  rw [List.eq_nil_iff_forall_not_mem]
  intro v hv
  exact h v (mem_of_mem_deliveries ch xs v hv)

/-! ## The deferred calls -/

theorem deferredCloses_succ {F P D : Type} (m : Nat) :
    (deferredCloses (m + 1) : List (Event F P D))
      = Event.close (Chan.sender m) :: deferredCloses m := by
  simp [deferredCloses, List.range_succ]

theorem closes_deferredCloses {F P D : Type} (m i : Nat) :
    closes (Chan.sender i) (deferredCloses m : List (Event F P D)) = if i < m then 1 else 0 := by
  induction m with
  | zero => simp [deferredCloses, closes]
  | succ m ih =>
    rw [deferredCloses_succ]
    unfold closes at ih ⊢
    rw [List.countP_cons, ih]
    by_cases h1 : m = i
    · subst h1
      simp [Event.closesChan]
    · by_cases h2 : i < m
      · have : i < m + 1 := by omega
        simp [Event.closesChan, h1, h2, this]
      · have : ¬ i < m + 1 := by omega
        simp [Event.closesChan, h1, h2, this]

theorem mem_deferredCloses {F P D : Type} (m : Nat) (e : Event F P D)
    (h : e ∈ deferredCloses m) : ∃ i, e = Event.close (Chan.sender i) := by
  simp only [deferredCloses, List.mem_map] at h
  obtain ⟨i, _, hi⟩ := h
  exact ⟨i, hi.symm⟩

/-! ## The outbound duty -/

theorem mem_broadcast_events {F P D : Type} (c : Computation P) (peer : Address → InnerSel)
    (l : List (Address × Nat)) (e : Event F P D) (h : e ∈ (broadcast c peer l).1) :
    ∃ i, e = Event.timeout (Chan.sender i) ∨ e = Event.send (Chan.sender i) (Value.computation c) := by
  induction l with
  | nil => simp [broadcast] at h
  | cons x rest ih =>
    obtain ⟨a, i⟩ := x
    simp only [broadcast] at h
    split at h
    · simp at h
    · rcases List.mem_cons.1 h with h | h
      · exact ⟨i, Or.inl h⟩
      · exact ih h
    · rcases List.mem_cons.1 h with h | h
      · exact ⟨i, Or.inr h⟩
      · exact ih h

theorem mem_outboundDuty_events {F P D : Type} (marshal : F → P)
    (rangeOrder : Nat → List (Address × Nat) → List (Address × Nat))
    (peer : Nat → Address → InnerSel) (senders : List (Address × Nat)) (r : Nat)
    (script : List (OuterSel F)) (e : Event F P D)
    (h : e ∈ (outboundDuty marshal rangeOrder peer senders r script).1) :
    ∃ i, e = Event.timeout (Chan.sender i) ∨ ∃ c, e = Event.send (Chan.sender i) (Value.computation c) := by
  induction script generalizing r with
  | nil => simp [outboundDuty] at h
  | cons s rest ih =>
    cases s with
    | done => simp [outboundDuty] at h
    | closed => simp [outboundDuty] at h
    | fragment f =>
      simp only [outboundDuty] at h
      split at h
      · obtain ⟨i, hi | hi⟩ := mem_broadcast_events _ _ _ _ h
        · exact ⟨i, Or.inl hi⟩
        · exact ⟨i, Or.inr ⟨_, hi⟩⟩
      · rcases List.mem_append.1 h with h | h
        · obtain ⟨i, hi | hi⟩ := mem_broadcast_events _ _ _ _ h
          · exact ⟨i, Or.inl hi⟩
          · exact ⟨i, Or.inr ⟨_, hi⟩⟩
        · exact ih (r + 1) h

/-! ## Release of the senders -/

theorem suffix_of_append_eq {α : Type} (xs ds pre post : List α) (x : α)
    (h : xs ++ ds = pre ++ x :: post) (hx : x ∉ xs) : ∀ y ∈ post, y ∈ ds := by
  rcases List.append_eq_append_iff.1 h with ⟨a, _, h2⟩ | ⟨c, h1, h2⟩
  · intro y hy
    rw [h2]
    exact List.mem_append_right _ (List.mem_cons_of_mem _ hy)
  · cases c with
    | nil =>
      intro y hy
      simp only [List.nil_append] at h2
      rw [← h2]
      exact List.mem_cons_of_mem _ hy
    | cons c0 c =>
      simp only [List.cons_append, List.cons.injEq] at h2
      exact absurd (by rw [h1, h2.1]; simp) hx

theorem senderTrace_of_exited {F P D : Type} (id : ID) (env : ProcessEnv F P D) (pool : Pool)
    (hpool : env.pool = Except.ok pool) (hexit : (RunEpochProcess id env).exited = true) :
    (RunEpochProcess id env).senderTrace
      = ((connect pool.Addresses 0 []).1 ++
          [Event.call (Call.newComputer id pool.Size (threshold pool.Size)),
           Event.make Chan.deltaFragments, Event.close Chan.deltaFragments,
           Event.call Call.openOrders, Event.call Call.computeOrderMatches] ++
          (outboundDuty env.marshal env.rangeOrder env.peer
            (connect (F := F) (P := P) (D := D) pool.Addresses 0 []).2 0 env.computed).1)
        ++ (deferredCloses pool.Addresses.length ++ [Event.close Chan.deltas]) := by
  simp only [RunEpochProcess, hpool] at hexit
  simp only [ProcessRun.senderTrace, RunEpochProcess, hpool, hexit, if_true]

/-- C8: when the worker of `RunEpochProcess` returns after channel setup (by
cancellation before or during a broadcast, or because the engine closed its
computed-fragment output), the senders it made are exactly `sender i` for `i`
below the number of pool addresses, each of them is closed exactly once, and no
send to a sender follows its close. -/
theorem senders_closed_once_on_exit {F P D : Type} (id : ID) (env : ProcessEnv F P D)
    (pool : Pool) (hpool : env.pool = Except.ok pool)
    (hexit : (RunEpochProcess id env).exited = true) (i : Nat) :
    (Event.make (Chan.sender i) ∈ (RunEpochProcess id env).senderTrace
        ↔ i < pool.Addresses.length)
      ∧ (i < pool.Addresses.length →
          closes (Chan.sender i) (RunEpochProcess id env).senderTrace = 1
          ∧ ∀ pre post,
              (RunEpochProcess id env).senderTrace = pre ++ Event.close (Chan.sender i) :: post →
              ∀ v, Event.send (Chan.sender i) v ∉ post) := by
  rw [senderTrace_of_exited id env pool hpool hexit]
  refine ⟨⟨fun h => ?_, fun h => ?_⟩, fun hi => ⟨?_, ?_⟩⟩
  · rcases List.mem_append.1 h with h | h
    · rcases List.mem_append.1 h with h | h
      · rcases List.mem_append.1 h with h | h
        · rcases mem_connect_events _ _ _ _ h with ⟨k, _, h2, h3⟩ | ⟨_, _, h3⟩
          · cases h3
            omega
          · cases h3
        · simp at h
      · obtain ⟨_, h3 | ⟨_, h3⟩⟩ := mem_outboundDuty_events _ _ _ _ _ _ _ h <;> cases h3
    · rcases List.mem_append.1 h with h | h
      · obtain ⟨_, h3⟩ := mem_deferredCloses _ _ h
        cases h3
      · simp at h
  · exact List.mem_append_left _ (List.mem_append_left _ (List.mem_append_left _
      (make_mem_connect_events _ _ _ _ (Nat.zero_le _) (by omega))))
  · rw [closes_append, closes_append, closes_append, closes_append, closes_deferredCloses,
      closes_eq_zero _ (connect pool.Addresses 0 []).1, closes_eq_zero _ (outboundDuty _ _ _ _ _ _).1]
    · simp [hi, closes, Event.closesChan]
    · intro c h
      obtain ⟨_, h3 | ⟨_, h3⟩⟩ := mem_outboundDuty_events _ _ _ _ _ _ _ h <;> cases h3
    · intro c h
      rcases mem_connect_events _ _ _ _ h with ⟨_, _, _, h3⟩ | ⟨_, _, h3⟩ <;> cases h3
  · intro pre post hsplit v hv
    have hnot : Event.close (Chan.sender i) ∉
        ((connect (F := F) (P := P) (D := D) pool.Addresses 0 []).1 ++
          [Event.call (Call.newComputer id pool.Size (threshold pool.Size)),
           Event.make Chan.deltaFragments, Event.close Chan.deltaFragments,
           Event.call Call.openOrders, Event.call Call.computeOrderMatches] ++
          (outboundDuty env.marshal env.rangeOrder env.peer
            (connect (F := F) (P := P) (D := D) pool.Addresses 0 []).2 0 env.computed).1) := by
      intro h
      rcases List.mem_append.1 h with h | h
      · rcases List.mem_append.1 h with h | h
        · rcases mem_connect_events _ _ _ _ h with ⟨_, _, _, h3⟩ | ⟨_, _, h3⟩ <;> cases h3
        · simp at h
      · obtain ⟨_, h3 | ⟨_, h3⟩⟩ := mem_outboundDuty_events _ _ _ _ _ _ _ h <;> cases h3
    have hmem := suffix_of_append_eq _ _ pre post _ hsplit hnot _ hv
    rcases List.mem_append.1 hmem with h | h
    · obtain ⟨_, h3⟩ := mem_deferredCloses _ _ h
      cases h3
    · simp at h

/-! ## The senders map -/

theorem mapSet_keys_nodup (m : List (Address × Nat)) (a : Address) (c : Nat)
    (h : (m.map Prod.fst).Nodup) : ((mapSet m a c).map Prod.fst).Nodup := by
  simp only [mapSet, List.map_cons, List.nodup_cons]
  refine ⟨?_, ?_⟩
  · intro hmem
    obtain ⟨e, he, hea⟩ := List.mem_map.1 hmem
    have := (List.mem_filter.1 he).2
    simp at this
    exact this hea
  · exact h.sublist ((List.filter_sublist m).map Prod.fst)

theorem mapSet_ids_nodup (m : List (Address × Nat)) (a : Address) (c : Nat)
    (h : (m.map Prod.snd).Nodup) (hlt : ∀ e ∈ m, e.2 < c) :
    ((mapSet m a c).map Prod.snd).Nodup := by
  simp only [mapSet, List.map_cons, List.nodup_cons]
  refine ⟨?_, ?_⟩
  · intro hmem
    obtain ⟨e, he, hec⟩ := List.mem_map.1 hmem
    have := hlt e (List.mem_filter.1 he).1
    omega
  · exact h.sublist ((List.filter_sublist m).map Prod.snd)

theorem mapSet_ids_lt (m : List (Address × Nat)) (a : Address) (c : Nat)
    (hlt : ∀ e ∈ m, e.2 < c) : ∀ e ∈ mapSet m a c, e.2 < c + 1 := by
  intro e he
  simp only [mapSet, List.mem_cons] at he
  rcases he with he | he
  · subst he
    simp
  · have := hlt e (List.mem_filter.1 he).1
    omega

theorem mem_mapSet_keys (m : List (Address × Nat)) (a : Address) (c : Nat) (x : Address) :
    x ∈ (mapSet m a c).map Prod.fst ↔ x = a ∨ x ∈ m.map Prod.fst := by
  simp only [mapSet, List.map_cons, List.mem_cons, List.mem_map, List.mem_filter]
  constructor
  · rintro (h | ⟨e, ⟨he, _⟩, hx⟩)
    · exact Or.inl h
    · exact Or.inr ⟨e, he, hx⟩
  · rintro (h | ⟨e, he, hx⟩)
    · exact Or.inl h
    · by_cases hxa : x = a
      · exact Or.inl hxa
      · refine Or.inr ⟨e, ⟨he, ?_⟩, hx⟩
        simp only [ne_eq, decide_eq_true_eq]
        rw [hx]
        exact hxa

theorem connect_senders_invariant {F P D : Type} (as : List Address) (i : Nat)
    (m : List (Address × Nat)) (hk : (m.map Prod.fst).Nodup) (hn : (m.map Prod.snd).Nodup)
    (hlt : ∀ e ∈ m, e.2 < i) :
    (((connect (F := F) (P := P) (D := D) as i m).2).map Prod.fst).Nodup
      ∧ (((connect (F := F) (P := P) (D := D) as i m).2).map Prod.snd).Nodup
      ∧ (∀ e ∈ (connect (F := F) (P := P) (D := D) as i m).2, e.2 < i + as.length)
      ∧ (∀ x, x ∈ ((connect (F := F) (P := P) (D := D) as i m).2).map Prod.fst
            ↔ x ∈ as ∨ x ∈ m.map Prod.fst) := by
  induction as generalizing i m with
  | nil => exact ⟨hk, hn, by simpa using hlt, by simp [connect]⟩
  | cons a rest ih =>
    obtain ⟨h1, h2, h3, h4⟩ := ih (i + 1) (mapSet m a i) (mapSet_keys_nodup m a i hk)
      (mapSet_ids_nodup m a i hn hlt) (mapSet_ids_lt m a i hlt)
    refine ⟨h1, h2, ?_, ?_⟩
    · intro e he
      have := h3 e he
      simp only [List.length_cons]
      omega
    · intro x
      rw [connect, h4 x, mem_mapSet_keys, List.mem_cons]
      tauto

theorem connect_senders_routed {F P D : Type} (as : List Address) (i : Nat)
    (m : List (Address × Nat)) (a : Address) (c : Nat)
    (h : (a, c) ∈ (connect (F := F) (P := P) (D := D) as i m).2) :
    (a, c) ∈ m ∨ (Event.call (Call.routerCompute a c) : Event F P D) ∈ (connect as i m).1 := by
  induction as generalizing i m with
  | nil => exact Or.inl h
  | cons b rest ih =>
    rcases ih (i + 1) (mapSet m b i) h with h' | h'
    · simp only [mapSet, List.mem_cons, Prod.mk.injEq] at h'
      rcases h' with ⟨h1, h2⟩ | h'
      · subst h1 h2
        exact Or.inr (by simp [connect])
      · exact Or.inl (List.mem_filter.1 h').1
    · exact Or.inr (by simp only [connect]; exact List.mem_cons_of_mem _ (List.mem_cons_of_mem _ h'))

/-! ## One broadcast -/

theorem broadcast_not_cancelled {F P D : Type} (c : Computation P) (peer : Address → InnerSel)
    (l : List (Address × Nat)) (h : ∀ a, peer a ≠ InnerSel.done) :
    (broadcast (F := F) (D := D) c peer l).2 = false := by
  induction l with
  | nil => rfl
  | cons x rest ih =>
    obtain ⟨a, i⟩ := x
    simp only [broadcast]
    split
    · rename_i hd
      exact absurd hd (h a)
    · exact ih
    · exact ih

theorem broadcast_other_channel {F P D : Type} (c : Computation P) (peer : Address → InnerSel)
    (l : List (Address × Nat)) (i : Nat) (h : i ∉ l.map Prod.snd) :
    deliveries (Chan.sender i) (broadcast (F := F) (D := D) c peer l).1 = []
      ∧ expiries (Chan.sender i) (broadcast (F := F) (D := D) c peer l).1 = 0 := by
  induction l with
  | nil => simp [broadcast, deliveries, expiries]
  | cons x rest ih =>
    obtain ⟨a, j⟩ := x
    simp only [List.map_cons, List.mem_cons, not_or] at h
    obtain ⟨hij, hrest⟩ := h
    have hji : j ≠ i := fun e => hij e.symm
    obtain ⟨ih1, ih2⟩ := ih hrest
    simp only [deliveries, expiries] at ih1 ih2
    simp only [broadcast]
    split
    · simp [deliveries, expiries]
    · simp [deliveries, expiries, Event.sentOn, Event.expiredOn, hji, ih1, ih2]
    · simp [deliveries, expiries, Event.sentOn, Event.expiredOn, hji, ih1, ih2]

theorem broadcast_channel {F P D : Type} (c : Computation P) (peer : Address → InnerSel)
    (l : List (Address × Nat)) (hdone : ∀ a, peer a ≠ InnerSel.done)
    (hn : (l.map Prod.snd).Nodup) (a : Address) (i : Nat) (hmem : (a, i) ∈ l) :
    (peer a = InnerSel.accepted →
        deliveries (Chan.sender i) (broadcast (F := F) (D := D) c peer l).1 = [Value.computation c]
        ∧ expiries (Chan.sender i) (broadcast (F := F) (D := D) c peer l).1 = 0)
      ∧ (peer a = InnerSel.timeout →
        deliveries (Chan.sender i) (broadcast (F := F) (D := D) c peer l).1 = []
        ∧ expiries (Chan.sender i) (broadcast (F := F) (D := D) c peer l).1 = 1) := by
  induction l with
  | nil => simp at hmem
  | cons x rest ih =>
    obtain ⟨b, j⟩ := x
    simp only [List.map_cons, List.nodup_cons] at hn
    obtain ⟨hj, hn'⟩ := hn
    rcases List.mem_cons.1 hmem with heq | hmem'
    · simp only [Prod.mk.injEq] at heq
      obtain ⟨hab, hij⟩ := heq
      subst hab hij
      obtain ⟨o1, o2⟩ := broadcast_other_channel (F := F) (D := D) c peer rest i hj
      simp only [deliveries, expiries] at o1 o2
      constructor
      · intro hacc
        simp [broadcast, hacc, deliveries, expiries, Event.sentOn, Event.expiredOn, o1, o2]
      · intro hto
        simp [broadcast, hto, deliveries, expiries, Event.sentOn, Event.expiredOn, o1, o2]
    · have hji : j ≠ i := by
        intro e
        subst e
        exact hj (List.mem_map.2 ⟨(a, j), hmem', rfl⟩)
      obtain ⟨ih1, ih2⟩ := ih hn' hmem'
      simp only [deliveries, expiries] at ih1 ih2
      have hb := hdone b
      cases hpb : peer b with
      | done => exact absurd hpb hb
      | timeout =>
        constructor
        · intro hacc
          simpa [broadcast, hpb, deliveries, expiries, Event.sentOn, Event.expiredOn, hji] using ih1 hacc
        · intro hto
          simpa [broadcast, hpb, deliveries, expiries, Event.sentOn, Event.expiredOn, hji] using ih2 hto
      | accepted =>
        constructor
        · intro hacc
          simpa [broadcast, hpb, deliveries, expiries, Event.sentOn, Event.expiredOn, hji] using ih1 hacc
        · intro hto
          simpa [broadcast, hpb, deliveries, expiries, Event.sentOn, Event.expiredOn, hji] using ih2 hto

theorem broadcast_waited {F P D : Type} (c : Computation P) (peer : Address → InnerSel)
    (l : List (Address × Nat)) (hdone : ∀ a, peer a ≠ InnerSel.done) :
    waited (broadcast (F := F) (D := D) c peer l).1
      = Minute * ((l.map Prod.fst).filter (fun a => peer a = InnerSel.timeout)).length := by
  induction l with
  | nil => simp [broadcast, waited]
  | cons x rest ih =>
    obtain ⟨b, j⟩ := x
    have hb := hdone b
    simp only [waited] at ih
    cases hpb : peer b with
    | done => exact absurd hpb hb
    | timeout =>
      simp [broadcast, hpb, waited, Event.expired, List.filter_cons, Nat.mul_add]
      simpa using ih
    | accepted =>
      simp [broadcast, hpb, waited, Event.expired, List.filter_cons]
      simpa using ih

theorem outboundDuty_rounds {F P D : Type} (marshal : F → P)
    (rangeOrder : Nat → List (Address × Nat) → List (Address × Nat))
    (peer : Nat → Address → InnerSel) (senders : List (Address × Nat))
    (earlier : List F) (r : Nat) (tail : List (OuterSel F))
    (hdone : ∀ q, q < r + earlier.length → ∀ a, peer q a ≠ InnerSel.done) :
    ∃ before : List (Event F P D),
      (outboundDuty marshal rangeOrder peer senders r
          (earlier.map OuterSel.fragment ++ tail)).1
        = before ++ (outboundDuty marshal rangeOrder peer senders
            (r + earlier.length) tail).1 := by
  induction earlier generalizing r with
  | nil => exact ⟨[], by simp⟩
  | cons f fs ih =>
    obtain ⟨before, hb⟩ := ih (r + 1) (fun q hq a => hdone q (by simp only [List.length_cons]; omega) a)
    have hnc := broadcast_not_cancelled (F := F) (D := D) (Computation.mk (some (marshal f)))
      (peer r) (rangeOrder r senders) (hdone r (by simp only [List.length_cons]; omega))
    refine ⟨(broadcast (Computation.mk (some (marshal f))) (peer r) (rangeOrder r senders)).1
      ++ before, ?_⟩
    have e : r + 1 + fs.length = r + (fs.length + 1) := by omega
    rw [e] at hb
    simp only [List.map_cons, List.cons_append, outboundDuty, hnc, Bool.false_eq_true, if_false,
      List.append_assoc, List.length_cons]
    rw [List.append_eq, hb]

/-- C4: in the broadcast of a computed fragment `f` (the one after the fragments
`earlier`), with `done` not firing and the range over the senders map visiting
every entry once, the outbound duty of `RunEpochProcess` sends the one message
`Computation(marshal f)` exactly once to the sender of every accepting peer and
lets no context expire for it; to the sender of a peer that does not accept it
sends nothing and lets exactly one context expire, then goes on with the other
peers; the time waited on expired contexts is one `time.Minute` per
non-accepting peer, hence less than two minutes when exactly one peer does not
accept. -/
theorem broadcast_per_peer {F P D : Type} (id : ID) (env : ProcessEnv F P D) (pool : Pool)
    (earlier : List F) (f : F) (later : List (OuterSel F))
    (hpool : env.pool = Except.ok pool)
    (hcomputed : env.computed = earlier.map OuterSel.fragment ++ OuterSel.fragment f :: later)
    (hdone : ∀ q, q ≤ earlier.length → ∀ a, env.peer q a ≠ InnerSel.done)
    (hrange : ∀ l, (env.rangeOrder earlier.length l).Perm l) :
    ∃ before round after,
      (RunEpochProcess id env).outbound = before ++ round ++ after
      ∧ round = (broadcast (Computation.mk (some (env.marshal f))) (env.peer earlier.length)
          (env.rangeOrder earlier.length
            (connect (F := F) (P := P) (D := D) pool.Addresses 0 []).2)).1
      ∧ (∀ a ∈ pool.Addresses, ∃ i, i < pool.Addresses.length
          ∧ Event.call (Call.routerCompute a i) ∈ (RunEpochProcess id env).setup
          ∧ (env.peer earlier.length a = InnerSel.accepted →
              deliveries (Chan.sender i) round
                = [Value.computation (Computation.mk (some (env.marshal f)))]
              ∧ expiries (Chan.sender i) round = 0)
          ∧ (env.peer earlier.length a = InnerSel.timeout →
              deliveries (Chan.sender i) round = [] ∧ expiries (Chan.sender i) round = 1))
      ∧ waited round = Minute *
          (pool.Addresses.dedup.filter
            (fun a => env.peer earlier.length a = InnerSel.timeout)).length
      ∧ ((pool.Addresses.dedup.filter
            (fun a => env.peer earlier.length a = InnerSel.timeout)).length = 1 →
          waited round < 2 * Minute) := by
  obtain ⟨hk, hn, hlt, hkeys⟩ := connect_senders_invariant (F := F) (P := P) (D := D)
    pool.Addresses 0 [] (by simp) (by simp) (by simp)
  have hperm := hrange (connect (F := F) (P := P) (D := D) pool.Addresses 0 []).2
  have hd : ∀ a, env.peer earlier.length a ≠ InnerSel.done := hdone _ (le_refl _)
  obtain ⟨before, hb⟩ := outboundDuty_rounds (D := D) env.marshal env.rangeOrder env.peer
    (connect (F := F) (P := P) (D := D) pool.Addresses 0 []).2 earlier 0
    (OuterSel.fragment f :: later) (fun q hq a => hdone q (by omega) a)
  have hnc := broadcast_not_cancelled (F := F) (D := D) (Computation.mk (some (env.marshal f)))
    (env.peer earlier.length)
    (env.rangeOrder earlier.length (connect (F := F) (P := P) (D := D) pool.Addresses 0 []).2) hd
  have hw : waited (broadcast (F := F) (D := D) (Computation.mk (some (env.marshal f)))
        (env.peer earlier.length)
        (env.rangeOrder earlier.length
          (connect (F := F) (P := P) (D := D) pool.Addresses 0 []).2)).1
      = Minute * (pool.Addresses.dedup.filter
          (fun a => env.peer earlier.length a = InnerSel.timeout)).length := by
    rw [broadcast_waited _ _ _ hd]
    congr 1
    apply List.Perm.length_eq
    apply List.Perm.filter
    refine (hperm.map Prod.fst).trans ?_
    refine (List.perm_ext_iff_of_nodup hk (List.nodup_dedup _)).2 ?_
    intro x
    rw [hkeys x, List.mem_dedup]
    simp
  refine ⟨before, _, (outboundDuty env.marshal env.rangeOrder env.peer
      (connect (F := F) (P := P) (D := D) pool.Addresses 0 []).2
      (earlier.length + 1) later).1, ?_, rfl, ?_, hw, ?_⟩
  · simp only [RunEpochProcess, hpool, hcomputed, hb, Nat.zero_add, outboundDuty, hnc,
      Bool.false_eq_true, if_false, List.append_assoc]
  · intro a ha
    have hmemk : a ∈ ((connect (F := F) (P := P) (D := D) pool.Addresses 0 []).2).map Prod.fst :=
      (hkeys a).2 (Or.inl ha)
    obtain ⟨e, he, hea⟩ := List.mem_map.1 hmemk
    obtain ⟨a', i⟩ := e
    simp only at hea
    subst hea
    have hroute : Event.call (Call.routerCompute a' i) ∈ (RunEpochProcess id env).setup := by
      rcases connect_senders_routed (F := F) (P := P) (D := D) pool.Addresses 0 [] a' i he with h | h
      · simp at h
      · simp only [RunEpochProcess, hpool]
        exact List.mem_append_left _ h
    have hch := broadcast_channel (F := F) (D := D) (Computation.mk (some (env.marshal f)))
      (env.peer earlier.length)
      (env.rangeOrder earlier.length (connect (F := F) (P := P) (D := D) pool.Addresses 0 []).2)
      hd ((hperm.map Prod.snd).nodup_iff.2 hn) a' i (hperm.mem_iff.2 he)
    exact ⟨i, by simpa using hlt _ he, hroute, hch.1, hch.2⟩
  · intro h1
    rw [hw, h1]
    decide

/-! ## What a run never does -/

theorem mem_inboundGoroutine_closed {F P D : Type} (unmarshal : P → F × Option String)
    (inbox : Inbox P) (e : Event F P D) (h : e ∈ (inboundGoroutine unmarshal true inbox).1) :
    e = Event.panic "send on closed channel" := by
  unfold inboundGoroutine at h
  split at h
  · simp at h
  · split at h
    · simp at h
    · split at h
      · simp at h
      · simpa [chanSend] using h

theorem mem_Pipe_events {F P D : Type} (script : List (PipeSel D)) (e : Event F P D)
    (h : e ∈ (Pipe (F := F) (P := P) script).1) : ∃ d, e = Event.send Chan.deltas (Value.delta d) := by
  induction script with
  | nil => simp [Pipe] at h
  | cons s rest ih =>
    cases s with
    | done => simp [Pipe] at h
    | closed => simp [Pipe] at h
    | value d =>
      simp only [Pipe, List.mem_cons] at h
      rcases h with h | h
      · exact ⟨d, h⟩
      · exact ih h

theorem events_shape {F P D : Type} (id : ID) (env : ProcessEnv F P D) (e : Event F P D)
    (h : e ∈ (RunEpochProcess id env).events) :
    (∀ v, e ≠ Event.send Chan.epochRoutes v) ∧ e ≠ Event.close Chan.errs := by
  unfold ProcessRun.events RunEpochProcess at h
  cases hpool : env.pool with
  | error err =>
    simp only [hpool] at h
    split at h
    · simp only [List.map_nil, List.flatten_nil, List.append_nil, List.mem_append, List.mem_singleton] at h
      rcases h with h | h
      · subst h
        refine ⟨fun v hv => ?_, fun hv => ?_⟩ <;> cases hv
      · subst h
        refine ⟨fun v hv => ?_, fun hv => ?_⟩ <;> cases hv
    · simp at h
  | ok pool =>
    simp only [hpool] at h
    rcases List.mem_append.1 h with h | h
    · rcases List.mem_append.1 h with h | h
      · rcases List.mem_append.1 h with h | h
        · rcases List.mem_append.1 h with h | h
          · rcases List.mem_append.1 h with h | h
            · rcases mem_connect_events _ _ _ _ h with ⟨_, _, _, h3⟩ | ⟨_, _, h3⟩ <;> subst h3 <;>
                refine ⟨fun v hv => ?_, fun hv => ?_⟩ <;> cases hv
            · simp only [List.mem_cons, List.mem_singleton, List.not_mem_nil, or_false] at h
              rcases h with h | h | h | h | h <;> subst h <;>
                refine ⟨fun v hv => ?_, fun hv => ?_⟩ <;> cases hv
          · simp only [List.map_map, List.mem_flatten, List.mem_map, Function.comp] at h
            obtain ⟨l, ⟨x, _, hx⟩, hel⟩ := h
            subst hx
            have := mem_inboundGoroutine_closed _ _ _ hel
            subst this
            refine ⟨fun v hv => ?_, fun hv => ?_⟩ <;> cases hv
        · obtain ⟨_, h3 | ⟨_, h3⟩⟩ := mem_outboundDuty_events _ _ _ _ _ _ _ h <;> subst h3 <;>
            refine ⟨fun v hv => ?_, fun hv => ?_⟩ <;> cases hv
      · obtain ⟨_, h3⟩ := mem_Pipe_events _ _ h
        subst h3
        refine ⟨fun v hv => ?_, fun hv => ?_⟩ <;> cases hv
    · split at h
      · rcases List.mem_append.1 h with h | h
        · obtain ⟨_, h3⟩ := mem_deferredCloses _ _ h
          subst h3
          refine ⟨fun v hv => ?_, fun hv => ?_⟩ <;> cases hv
        · simp only [List.mem_singleton] at h
          subst h
          refine ⟨fun v hv => ?_, fun hv => ?_⟩ <;> cases hv
      · simp at h

/-! ## Evaluations -/

/-- C1, at a pool of three peers: the engine is made with `n = 3`, `k = 2`. -/
theorem threshold_floor_and_bounds_witness :
    Event.call (Call.newComputer "node" 3 (threshold 3)) ∈ (RunEpochProcess "node" threePeers).setup
      ∧ threshold 3 = ⌊((2 * (3 + 1) : Int) : ℚ) / 3⌋
      ∧ 1 ≤ threshold 3 ∧ threshold 3 ≤ 3 := by
  have h := threshold_floor_and_bounds "node" threePeers (Pool.mk ["a", "b", "c"] 3) rfl
    (by decide) (by decide)
  exact ⟨h.1, h.2.2.1, h.2.2.2.1, h.2.2.2.2.1⟩

/-- C2: with one peer delivering two computations that each carry a fragment,
the inbound goroutine takes the first, panics on its send to the closed
`deltaFragments` channel and leaves the second unread: nothing reaches the
engine.  Even with `deltaFragments` open the goroutine would hand over the first
fragment only, since its `select` is not in a loop. -/
theorem inbound_reads_one_message :
    (RunEpochProcess "node" twoMessages).inbound
        = [("a", [Event.panic "send on closed channel"], [Computation.mk (some 2)])]
      ∧ deliveries Chan.deltaFragments (RunEpochProcess "node" twoMessages).events = []
      ∧ ∀ (unmarshal : Nat → Nat × Option String) (p1 p2 : Nat) (rest : List (Computation Nat)),
          inboundGoroutine (D := Nat) unmarshal false
              (Inbox.mk false (Computation.mk (some p1) :: Computation.mk (some p2) :: rest))
            = ([Event.send Chan.deltaFragments (Value.fragment (unmarshal p1).1)],
                Computation.mk (some p2) :: rest) := by
  refine ⟨by decide, by decide, ?_⟩
  intro unmarshal p1 p2 rest
  simp [inboundGoroutine, chanSend]

/-- C3: `deltaFragments` is closed during setup, so the inbound goroutine
panics on any computation that carries a fragment, whatever the unmarshalling
returns. -/
theorem inbound_send_panics :
    Event.close Chan.deltaFragments ∈ (RunEpochProcess "node" oneMessage).setup
      ∧ (RunEpochProcess "node" oneMessage).inbound
          = [("a", [Event.panic "send on closed channel"], [])]
      ∧ ∀ (unmarshal : Nat → Nat × Option String) (payload : Nat) (rest : List (Computation Nat)),
          (inboundGoroutine (D := Nat) unmarshal true
              (Inbox.mk false (Computation.mk (some payload) :: rest))).1
            = [Event.panic "send on closed channel"] := by
  refine ⟨by decide, by decide, ?_⟩
  intro unmarshal payload rest
  simp [inboundGoroutine, chanSend]

/-- C7: no run of `RunEpochProcess` ever sends on `epochRoutes`; in particular
the run with three peers, whose pool resolution succeeds, sends no route. -/
theorem no_epochRoute_sent :
    (∀ {F P D : Type} (id : ID) (env : ProcessEnv F P D),
        deliveries Chan.epochRoutes (RunEpochProcess id env).events = [])
      ∧ (RunEpochProcess "node" threePeers).exited = true
      ∧ deliveries Chan.epochRoutes (RunEpochProcess "node" threePeers).events = [] := by
  refine ⟨?_, by decide, by decide⟩
  intro F P D id env
  exact deliveries_eq_nil _ _ (fun v hv => (events_shape id env _ hv).1 v rfl)

/-- C9: no run of `RunEpochProcess` ever closes `errs`; in particular the run
that is cancelled at once returns and closes `deltas`, and leaves `errs` open. -/
theorem errs_never_closed :
    (∀ {F P D : Type} (id : ID) (env : ProcessEnv F P D),
        closes Chan.errs (RunEpochProcess id env).events = 0)
      ∧ (RunEpochProcess "node" cancelledAtOnce).exited = true
      ∧ closes Chan.deltas (RunEpochProcess "node" cancelledAtOnce).events = 1
      ∧ closes Chan.errs (RunEpochProcess "node" cancelledAtOnce).events = 0 := by
  refine ⟨?_, by decide, by decide, by decide⟩
  intro F P D id env
  rw [closes, List.countP_eq_zero]
  intro e he
  have := (events_shape id env e he).2
  cases e <;> simp [Event.closesChan]
  case close c =>
    intro hc
    exact this (by rw [hc])

/-- C8, at three peers with `done` firing after one broadcast: the three
senders are each closed exactly once. -/
theorem senders_closed_once_on_exit_witness :
    (RunEpochProcess "node" threePeers).exited = true
      ∧ closes (Chan.sender 0) (RunEpochProcess "node" threePeers).senderTrace = 1
      ∧ closes (Chan.sender 1) (RunEpochProcess "node" threePeers).senderTrace = 1
      ∧ closes (Chan.sender 2) (RunEpochProcess "node" threePeers).senderTrace = 1 :=
  ⟨by decide,
    ((senders_closed_once_on_exit "node" threePeers (Pool.mk ["a", "b", "c"] 3) rfl
      (by decide) 0).2 (by decide)).1,
    ((senders_closed_once_on_exit "node" threePeers (Pool.mk ["a", "b", "c"] 3) rfl
      (by decide) 1).2 (by decide)).1,
    ((senders_closed_once_on_exit "node" threePeers (Pool.mk ["a", "b", "c"] 3) rfl
      (by decide) 2).2 (by decide)).1⟩

/-- C4, at three peers of which `b` never accepts: `a` and `c` receive the
computation once, `b` receives nothing, and one minute is waited. -/
theorem broadcast_per_peer_witness :
    ∃ before round after,
      (RunEpochProcess "node" threePeers).outbound = before ++ round ++ after
      ∧ round = (broadcast (Computation.mk (some 7)) (threePeers.peer 0)
          (connect (F := Nat) (P := Nat) (D := Nat) ["a", "b", "c"] 0 []).2).1
      ∧ (∀ a ∈ ["a", "b", "c"], ∃ i, i < 3
          ∧ Event.call (Call.routerCompute a i) ∈ (RunEpochProcess "node" threePeers).setup
          ∧ (threePeers.peer 0 a = InnerSel.accepted →
              deliveries (Chan.sender i) round = [Value.computation (Computation.mk (some 7))]
              ∧ expiries (Chan.sender i) round = 0)
          ∧ (threePeers.peer 0 a = InnerSel.timeout →
              deliveries (Chan.sender i) round = [] ∧ expiries (Chan.sender i) round = 1))
      ∧ waited round = Minute *
          (["a", "b", "c"].dedup.filter (fun a => threePeers.peer 0 a = InnerSel.timeout)).length
      ∧ ((["a", "b", "c"].dedup.filter
            (fun a => threePeers.peer 0 a = InnerSel.timeout)).length = 1 →
          waited round < 2 * Minute) :=
  broadcast_per_peer "node" threePeers (Pool.mk ["a", "b", "c"] 3) [] 7 [OuterSel.done] rfl rfl
    (fun q _ a => by simp only [threePeers]; split <;> simp)
    (fun l => List.Perm.refl l)

/-! ## The epoch watcher: emissions -/

theorem spinLock_cancelled (env : WatcherEnv) (interval : Nat) (cur : Epoch) (j : Nat)
    (reads : List (Answer Epoch × Bool)) :
    spinLock env interval cur j true reads = watcherDeferred := by
  simp [spinLock]

theorem emitted_spinLock (env : WatcherEnv) (interval : Nat)
    (hacc : ∀ j, env.accepted j = true) (hsleep : ∀ j, env.cancelledInSleep j = false)
    (hconv : ∀ t, ∃ u, env.toUnix t interval = Answer.ok u) (es : List Epoch) (cur : Epoch)
    (j : Nat) :
    emitted (spinLock env interval cur j false (es.map (fun e => (Answer.ok e, false))))
      = changesAfter cur es := by
  induction es generalizing cur j with
  | nil => simp [spinLock, emitted, changesAfter]
  | cons e rest ih =>
    obtain ⟨u, hu⟩ := hconv e.Timestamp
    by_cases hne : cur.Blockhash = e.Blockhash
    · have ih' := ih cur j
      simp only [emitted] at ih'
      simp [spinLock, changesAfter, hne, emitted, WatchEvent.epoch, ih']
    · have hne' : ¬ e.Blockhash = cur.Blockhash := fun h => hne h.symm
      have ih' := ih e (j + 1)
      simp only [emitted] at ih'
      simp [spinLock, changesAfter, hne, hne', emitted, WatchEvent.epoch, announce, hacc, hsleep,
        hu, ih']

theorem emitted_reading (env : WatcherEnv) (interval : Nat)
    (hinterval : env.minimumEpochInterval = Answer.ok interval)
    (hacc : ∀ j, env.accepted j = true) (hsleep : ∀ j, env.cancelledInSleep j = false)
    (hconv : ∀ t, ∃ u, env.toUnix t interval = Answer.ok u) (e0 : Epoch) (es : List Epoch) :
    emitted (RunEpochWatcher (env.reading (e0 :: es))) = e0 :: changesAfter e0 es := by
  obtain ⟨u, hu⟩ := hconv e0.Timestamp
  have h := emitted_spinLock (env.reading (e0 :: es)) interval hacc hsleep hconv es e0 0
  simp only [emitted] at h
  simp only [WatcherEnv.reading, hinterval, List.map_cons] at h
  simp [RunEpochWatcher, WatcherEnv.reading, hinterval, announce, hacc, hsleep, hu, emitted,
    WatchEvent.epoch]
  exact h

theorem changesAfter_chain (last : Epoch) (es : List Epoch) :
    List.Chain (fun a b => a.Blockhash ≠ b.Blockhash) last (changesAfter last es) := by
  induction es generalizing last with
  | nil => simp [changesAfter]
  | cons e rest ih =>
    simp only [changesAfter]
    split
    · rename_i h
      exact List.Chain.cons (fun h' => h h'.symm) (ih e)
    · exact ih last

theorem changesAfter_snoc (last : Epoch) (pre : List Epoch) (e : Epoch) :
    changesAfter last (pre ++ [e])
      = changesAfter last pre ++
          (if e.Blockhash ≠ ((last :: changesAfter last pre).getLast (by simp)).Blockhash
            then [e] else []) := by
  induction pre generalizing last with
  | nil => simp [changesAfter]
  | cons p ps ih =>
    simp only [List.cons_append, changesAfter, List.append_eq]
    split
    · rw [ih p]
      simp [List.getLast_cons]
    · rw [ih last]

/-- C5: with a registry whose reads succeed with `e0, e1, ...`, no cancellation
and no conversion error, `RunEpochWatcher` emits `e0` and then exactly the reads
whose block hash differs from that of the most recently emitted epoch, in read
order; no two consecutive emissions have the same block hash; and a further
read with the block hash of the last emitted epoch adds no emission, whatever
its timestamp. -/
theorem watcher_emits_changes (env : WatcherEnv) (interval : Nat)
    (hinterval : env.minimumEpochInterval = Answer.ok interval)
    (hacc : ∀ j, env.accepted j = true) (hsleep : ∀ j, env.cancelledInSleep j = false)
    (hconv : ∀ t, ∃ u, env.toUnix t interval = Answer.ok u) (e0 : Epoch) (es : List Epoch) :
    emitted (RunEpochWatcher (env.reading (e0 :: es))) = e0 :: changesAfter e0 es
      ∧ List.Chain' (fun a b => a.Blockhash ≠ b.Blockhash)
          (emitted (RunEpochWatcher (env.reading (e0 :: es))))
      ∧ ∀ e last, (emitted (RunEpochWatcher (env.reading (e0 :: es)))).getLast? = some last →
          e.Blockhash = last.Blockhash →
          emitted (RunEpochWatcher (env.reading (e0 :: (es ++ [e]))))
            = emitted (RunEpochWatcher (env.reading (e0 :: es))) := by
  rw [emitted_reading env interval hinterval hacc hsleep hconv e0 es]
  refine ⟨rfl, changesAfter_chain e0 es, ?_⟩
  intro e last hlast hhash
  rw [emitted_reading env interval hinterval hacc hsleep hconv e0 (es ++ [e]),
    changesAfter_snoc]
  rw [List.getLast?_eq_getLast _ (by simp)] at hlast
  simp only [Option.some.injEq] at hlast
  rw [hlast]
  simp [hhash]

/-- C5, at the reads `[1]@100, [1]@101, [2]@200`: the first and the third are
emitted. -/
theorem watcher_emits_changes_witness :
    emitted (RunEpochWatcher ((undisturbed 10).reading [epochA, epochAgain, epochB]))
        = epochA :: changesAfter epochA [epochAgain, epochB]
      ∧ changesAfter epochA [epochAgain, epochB] = [epochB] :=
  ⟨(watcher_emits_changes (undisturbed 10) 10 rfl (fun _ => rfl) (fun _ => rfl)
      (fun t => ⟨t + 10, rfl⟩) epochA [epochAgain, epochB]).1, by decide⟩

/-! ## The epoch watcher: termination on failure and on cancellation -/

theorem stopsAfterCancelledSleep_cons (x : WatchEvent) (t : List WatchEvent)
    (hx : ∀ deadline, x = WatchEvent.sleep deadline true → t = watcherDeferred)
    (ht : StopsAfterCancelledSleep t) : StopsAfterCancelledSleep (x :: t) := by
  intro pre deadline post h
  rcases List.cons_eq_append_iff.1 h with ⟨_, h2⟩ | ⟨pre', _, h2⟩
  · simp only [List.cons.injEq] at h2
    rw [h2.2]
    exact hx deadline h2.1.symm
  · exact ht pre' deadline post h2

theorem stopsAfterCancelledSleep_of_no_sleep (t : List WatchEvent)
    (h : ∀ deadline c, WatchEvent.sleep deadline c ∉ t) : StopsAfterCancelledSleep t := by
  intro pre deadline post hsplit
  exact absurd (by rw [hsplit]; simp) (h deadline true)

theorem stopsAfterCancelledSleep_announce (env : WatcherEnv) (interval j : Nat) (cur : Epoch)
    (spin : Bool → List WatchEvent) (hspin : ∀ c, StopsAfterCancelledSleep (spin c))
    (htrue : spin true = watcherDeferred) :
    StopsAfterCancelledSleep (announce env interval j cur spin) := by
  unfold announce
  split
  · apply stopsAfterCancelledSleep_cons _ _ (fun _ h => by cases h)
    split
    · exact stopsAfterCancelledSleep_of_no_sleep _ (by simp [watcherDeferred])
    · apply stopsAfterCancelledSleep_cons _ _ _ (hspin _)
      intro deadline h
      simp only [WatchEvent.sleep.injEq] at h
      rw [h.2]
      exact htrue
  · exact stopsAfterCancelledSleep_of_no_sleep _ (by simp [watcherDeferred])

theorem stopsAfterCancelledSleep_spinLock (env : WatcherEnv) (interval : Nat)
    (reads : List (Answer Epoch × Bool)) (cur : Epoch) (j : Nat) (done : Bool) :
    StopsAfterCancelledSleep (spinLock env interval cur j done reads) := by
  induction reads generalizing cur j done with
  | nil =>
    cases done
    · simp only [spinLock]
      exact stopsAfterCancelledSleep_of_no_sleep _ (by simp)
    · rw [spinLock_cancelled]
      exact stopsAfterCancelledSleep_of_no_sleep _ (by simp [watcherDeferred])
  | cons r rest ih =>
    cases done
    · obtain ⟨a, d⟩ := r
      cases a with
      | failed err =>
        simp only [spinLock]
        exact stopsAfterCancelledSleep_of_no_sleep _ (by simp [watcherDeferred])
      | ok next =>
        simp only [spinLock]
        apply stopsAfterCancelledSleep_cons _ _ (fun _ h => by cases h)
        split
        · exact stopsAfterCancelledSleep_announce _ _ _ _ _ (fun c => ih next (j + 1) c)
            (spinLock_cancelled _ _ _ _ _)
        · exact ih cur j d
    · rw [spinLock_cancelled]
      exact stopsAfterCancelledSleep_of_no_sleep _ (by simp [watcherDeferred])

/-- C10: when `done` is closed during a sleep of `RunEpochWatcher`, what
follows the sleep is the two deferred closes and nothing else: no registry
read, no emission, no error, and both `errs` and `changes` are closed. -/
theorem cancelled_in_sleep_stops (env : WatcherEnv) (pre post : List WatchEvent)
    (deadline : Nat)
    (h : RunEpochWatcher env = pre ++ WatchEvent.sleep deadline true :: post) :
    post = [WatchEvent.closeErrs, WatchEvent.closeChanges] := by
  have key : StopsAfterCancelledSleep (RunEpochWatcher env) := by
    unfold RunEpochWatcher
    split
    · exact stopsAfterCancelledSleep_of_no_sleep _ (by simp [watcherDeferred])
    · apply stopsAfterCancelledSleep_cons _ _ (fun _ h => by cases h)
      split
      · exact stopsAfterCancelledSleep_of_no_sleep _ (by simp)
      · exact stopsAfterCancelledSleep_of_no_sleep _ (by simp [watcherDeferred])
      · apply stopsAfterCancelledSleep_cons _ _ (fun _ h => by cases h)
        exact stopsAfterCancelledSleep_announce _ _ _ _ _
          (fun c => stopsAfterCancelledSleep_spinLock _ _ _ _ _ c) (spinLock_cancelled _ _ _ _ _)
  exact key pre deadline post h

/-- C10, at a run in which `done` is closed during the first sleep: the run
ends with the sleep and the two closes, although the registry has a new epoch
ready. -/
theorem cancelled_in_sleep_stops_witness :
    RunEpochWatcher cancelledAsleep
        = [WatchEvent.minimumEpochInterval (Answer.ok 10),
            WatchEvent.currentEpoch false (Answer.ok epochA), WatchEvent.emit epochA]
          ++ WatchEvent.sleep 110 true :: [WatchEvent.closeErrs, WatchEvent.closeChanges]
      ∧ [WatchEvent.closeErrs, WatchEvent.closeChanges]
          = [WatchEvent.closeErrs, WatchEvent.closeChanges] :=
  ⟨by decide, cancelled_in_sleep_stops cancelledAsleep
    [WatchEvent.minimumEpochInterval (Answer.ok 10),
      WatchEvent.currentEpoch false (Answer.ok epochA), WatchEvent.emit epochA]
    [WatchEvent.closeErrs, WatchEvent.closeChanges] 110 (by decide)⟩

theorem failsFatally_cons (x : WatchEvent) (t : List WatchEvent)
    (hx : x.failedRead = true →
      ∃ msg, t = [WatchEvent.error msg, WatchEvent.closeErrs, WatchEvent.closeChanges])
    (ht : FailsFatally t) : FailsFatally (x :: t) := by
  intro pre ev post h hfail
  rcases List.cons_eq_append_iff.1 h with ⟨_, h2⟩ | ⟨pre', _, h2⟩
  · simp only [List.cons.injEq] at h2
    rw [h2.2]
    exact hx (by rw [← h2.1]; exact hfail)
  · exact ht pre' ev post h2 hfail

theorem failsFatally_of_no_failure (t : List WatchEvent)
    (h : ∀ ev ∈ t, ev.failedRead = false) : FailsFatally t := by
  intro pre ev post hsplit hfail
  have := h ev (by rw [hsplit]; simp)
  rw [this] at hfail
  cases hfail

theorem failsFatally_announce (env : WatcherEnv) (interval j : Nat) (cur : Epoch)
    (spin : Bool → List WatchEvent) (hspin : ∀ c, FailsFatally (spin c)) :
    FailsFatally (announce env interval j cur spin) := by
  unfold announce
  split
  · apply failsFatally_cons _ _ (fun h => by cases h)
    split
    · exact failsFatally_of_no_failure _ (by simp [watcherDeferred, WatchEvent.failedRead])
    · exact failsFatally_cons _ _ (fun h => by cases h) (hspin _)
  · exact failsFatally_of_no_failure _ (by simp [watcherDeferred, WatchEvent.failedRead])

theorem failsFatally_spinLock (env : WatcherEnv) (interval : Nat)
    (reads : List (Answer Epoch × Bool)) (cur : Epoch) (j : Nat) (done : Bool) :
    FailsFatally (spinLock env interval cur j done reads) := by
  induction reads generalizing cur j done with
  | nil =>
    cases done
    · simp only [spinLock]
      exact failsFatally_of_no_failure _ (by simp)
    · rw [spinLock_cancelled]
      exact failsFatally_of_no_failure _ (by simp [watcherDeferred, WatchEvent.failedRead])
  | cons r rest ih =>
    cases done
    · obtain ⟨a, d⟩ := r
      cases a with
      | failed err =>
        simp only [spinLock]
        apply failsFatally_cons _ _ (fun _ => ⟨_, rfl⟩)
        exact failsFatally_of_no_failure _ (by simp [watcherDeferred, WatchEvent.failedRead])
      | ok next =>
        simp only [spinLock]
        apply failsFatally_cons _ _ (fun h => by cases h)
        split
        · exact failsFatally_announce _ _ _ _ _ (fun c => ih next (j + 1) c)
        · exact ih cur j d
    · rw [spinLock_cancelled]
      exact failsFatally_of_no_failure _ (by simp [watcherDeferred, WatchEvent.failedRead])

theorem failsFatally_run (env : WatcherEnv) : FailsFatally (RunEpochWatcher env) := by
  unfold RunEpochWatcher
  split
  · apply failsFatally_cons _ _ (fun _ => ⟨_, rfl⟩)
    exact failsFatally_of_no_failure _ (by simp [watcherDeferred, WatchEvent.failedRead])
  · apply failsFatally_cons _ _ (fun h => by cases h)
    split
    · exact failsFatally_of_no_failure _ (by simp)
    · apply failsFatally_cons _ _ (fun _ => ⟨_, rfl⟩)
      exact failsFatally_of_no_failure _ (by simp [watcherDeferred, WatchEvent.failedRead])
    · apply failsFatally_cons _ _ (fun h => by cases h)
      exact failsFatally_announce _ _ _ _ _ (fun c => failsFatally_spinLock _ _ _ _ _ c)

theorem errorsPlaced_cons (x : WatchEvent) (t : List WatchEvent) :
    errorsPlaced (x :: t) = errorsPlaced t + (if x.placesError then 1 else 0) := by
  simp [errorsPlaced, List.countP_cons]

theorem errorsPlaced_announce (env : WatcherEnv) (interval j : Nat) (cur : Epoch)
    (spin : Bool → List WatchEvent) (hspin : ∀ c, errorsPlaced (spin c) ≤ 1) :
    errorsPlaced (announce env interval j cur spin) ≤ 1 := by
  unfold announce
  split
  · split
    · simp [errorsPlaced, watcherDeferred, WatchEvent.placesError]
    · have := hspin (env.cancelledInSleep j)
      simpa [errorsPlaced_cons, WatchEvent.placesError] using this
  · simp [errorsPlaced, watcherDeferred, WatchEvent.placesError]

theorem errorsPlaced_spinLock (env : WatcherEnv) (interval : Nat)
    (reads : List (Answer Epoch × Bool)) (cur : Epoch) (j : Nat) (done : Bool) :
    errorsPlaced (spinLock env interval cur j done reads) ≤ 1 := by
  induction reads generalizing cur j done with
  | nil =>
    cases done
    · simp [spinLock, errorsPlaced]
    · simp [spinLock, errorsPlaced, watcherDeferred, WatchEvent.placesError]
  | cons r rest ih =>
    cases done
    · obtain ⟨a, d⟩ := r
      cases a with
      | failed err => simp [spinLock, errorsPlaced, watcherDeferred, WatchEvent.placesError]
      | ok next =>
        simp only [spinLock, errorsPlaced_cons, WatchEvent.placesError]
        split
        · simpa using errorsPlaced_announce _ _ _ _ _ (fun c => ih next (j + 1) c)
        · simpa using ih cur j d
    · simp [spinLock, errorsPlaced, watcherDeferred, WatchEvent.placesError]

theorem errorsPlaced_run (env : WatcherEnv) : errorsPlaced (RunEpochWatcher env) ≤ 1 := by
  unfold RunEpochWatcher
  split
  · simp [errorsPlaced, watcherDeferred, WatchEvent.placesError]
  · split
    · simp [errorsPlaced, WatchEvent.placesError]
    · simp [errorsPlaced, watcherDeferred, WatchEvent.placesError]
    · simp only [errorsPlaced_cons, WatchEvent.placesError]
      simpa using errorsPlaced_announce _ _ _ _ _ (fun c => errorsPlaced_spinLock _ _ _ _ _ c)

theorem startup_announce (env : WatcherEnv) (interval j : Nat) (cur : Epoch)
    (spin : Bool → List WatchEvent) (hspin : ∀ c, ∀ ev ∈ spin c, ev.startup = false) :
    ∀ ev ∈ announce env interval j cur spin, ev.startup = false := by
  intro ev hev
  unfold announce at hev
  split at hev
  · rcases List.mem_cons.1 hev with h | hev
    · subst h
      rfl
    · split at hev
      · simp only [watcherDeferred, List.mem_cons, List.mem_singleton, List.not_mem_nil,
          or_false] at hev
        rcases hev with h | h | h <;> subst h <;> rfl
      · rcases List.mem_cons.1 hev with h | hev
        · subst h
          rfl
        · exact hspin _ ev hev
  · simp only [watcherDeferred, List.mem_cons, List.mem_singleton, List.not_mem_nil,
      or_false] at hev
    rcases hev with h | h <;> subst h <;> rfl

theorem startup_spinLock (env : WatcherEnv) (interval : Nat)
    (reads : List (Answer Epoch × Bool)) (cur : Epoch) (j : Nat) (done : Bool) :
    ∀ ev ∈ spinLock env interval cur j done reads, ev.startup = false := by
  induction reads generalizing cur j done with
  | nil =>
    cases done
    · simp [spinLock]
    · intro ev hev
      simp only [spinLock, watcherDeferred, List.mem_cons, List.mem_singleton, List.not_mem_nil,
        or_false] at hev
      rcases hev with h | h <;> subst h <;> rfl
  | cons r rest ih =>
    cases done
    · obtain ⟨a, d⟩ := r
      cases a with
      | failed err =>
        intro ev hev
        simp only [spinLock, watcherDeferred, List.mem_cons, List.mem_singleton,
          List.not_mem_nil, or_false] at hev
        rcases hev with h | h | h | h <;> subst h <;> rfl
      | ok next =>
        intro ev hev
        simp only [spinLock] at hev
        rcases List.mem_cons.1 hev with h | hev
        · subst h
          rfl
        · split at hev
          · exact startup_announce _ _ _ _ _ (fun c => ih next (j + 1) c) ev hev
          · exact ih cur j d ev hev
    · intro ev hev
      simp only [spinLock, watcherDeferred, List.mem_cons, List.mem_singleton, List.not_mem_nil,
        or_false] at hev
      rcases hev with h | h <;> subst h <;> rfl

theorem startup_failure_emits_nothing (env : WatcherEnv) (ev : WatchEvent)
    (hev : ev ∈ RunEpochWatcher env) (hfail : ev.failedRead = true) (hstart : ev.startup = true) :
    emitted (RunEpochWatcher env) = [] := by
  unfold RunEpochWatcher at hev ⊢
  split at hev
  · simp [emitted, watcherDeferred, WatchEvent.epoch]
  · split at hev
    · simp [emitted, WatchEvent.epoch]
    · simp [emitted, watcherDeferred, WatchEvent.epoch]
    · rcases List.mem_cons.1 hev with h | hev
      · subst h
        cases hfail
      · rcases List.mem_cons.1 hev with h | hev
        · subst h
          cases hfail
        · have := startup_announce _ _ _ _ _ (fun c => startup_spinLock _ _ _ _ _ c) ev hev
          rw [this] at hstart
          cases hstart

/-- C6: at a failed registry read of `RunEpochWatcher`, what follows is one
error on `errs` and the two deferred closes, and nothing else (no further read,
no emission); no error was placed before it, so the run places exactly one; no
read before it failed; and when it is one of the two reads made before the
loop, the run emits no epoch at all. -/
theorem failed_read_is_fatal (env : WatcherEnv) (pre post : List WatchEvent) (ev : WatchEvent)
    (h : RunEpochWatcher env = pre ++ ev :: post) (hfail : ev.failedRead = true) :
    (∃ msg, post = [WatchEvent.error msg, WatchEvent.closeErrs, WatchEvent.closeChanges])
      ∧ errorsPlaced pre = 0
      ∧ errorsPlaced (RunEpochWatcher env) = 1
      ∧ (∀ x ∈ pre, x.failedRead = false)
      ∧ (ev.startup = true → emitted (RunEpochWatcher env) = []) := by
  obtain ⟨msg, hpost⟩ := failsFatally_run env pre ev post h hfail
  have hle := errorsPlaced_run env
  have hcount : errorsPlaced (RunEpochWatcher env) = errorsPlaced pre + 1 := by
    rw [h, hpost]
    cases ev <;> simp [WatchEvent.failedRead] at hfail <;>
      simp [errorsPlaced, List.countP_append, List.countP_cons, WatchEvent.placesError]
  refine ⟨⟨msg, hpost⟩, by omega, by omega, ?_, ?_⟩
  · intro x hx
    by_contra hxf
    simp only [Bool.not_eq_false] at hxf
    obtain ⟨p1, p2, hp⟩ := List.append_of_mem hx
    have h' : RunEpochWatcher env = p1 ++ x :: (p2 ++ ev :: post) := by
      rw [h, hp]
      simp
    obtain ⟨msg', hpost'⟩ := failsFatally_run env p1 x _ h' hxf
    have hmem : ev ∈ [WatchEvent.error msg', WatchEvent.closeErrs, WatchEvent.closeChanges] := by
      rw [← hpost']
      simp
    simp only [List.mem_cons, List.mem_singleton, List.not_mem_nil, or_false] at hmem
    rcases hmem with e | e | e <;> subst e <;> cases hfail
  · intro hstart
    exact startup_failure_emits_nothing env ev (by rw [h]; simp) hfail hstart

/-- C6, at a registry whose second read fails: the first epoch is emitted, the
failed read is followed by one error and the closes, and the third answer of the
registry is never asked for. -/
theorem failed_read_is_fatal_witness :
    RunEpochWatcher failingRegistry
        = [WatchEvent.minimumEpochInterval (Answer.ok 10),
            WatchEvent.currentEpoch false (Answer.ok epochA), WatchEvent.emit epochA,
            WatchEvent.sleep 110 false]
          ++ WatchEvent.currentEpoch true (Answer.failed "unreachable")
            :: [WatchEvent.error "cannot get next epoch: unreachable", WatchEvent.closeErrs,
                WatchEvent.closeChanges]
      ∧ errorsPlaced (RunEpochWatcher failingRegistry) = 1 :=
  ⟨by decide,
    (failed_read_is_fatal failingRegistry
      [WatchEvent.minimumEpochInterval (Answer.ok 10),
        WatchEvent.currentEpoch false (Answer.ok epochA), WatchEvent.emit epochA,
        WatchEvent.sleep 110 false]
      [WatchEvent.error "cannot get next epoch: unreachable", WatchEvent.closeErrs,
        WatchEvent.closeChanges]
      (WatchEvent.currentEpoch true (Answer.failed "unreachable")) (by decide) rfl).2.2.1⟩

end Darknode
